import Mathlib

/-!
Verification of the `imagehash` core (`src/lib.rs`).

The crate computes perceptual hashes of images: a preprocessing step
(grayscale conversion and exact resize, performed by the external `image`
crate) produces a row-major buffer of 8-bit luminance samples of length
`width * height`; the core then derives a bit vector (average hash or
difference hash), packs it MSB-first into bytes, and renders the bytes as
lowercase hex.

The shallow embedding below models the core after the preprocessing cut:
each hash function takes the preprocessed pixel buffer (a `List Nat` of
8-bit samples) together with the `ImageOp` configuration.  Machine
integers are modelled as `Nat` with explicit wrap-around (`% 256` for
`u8`, `% 65536` for `u16`), matching the release-profile semantics of the
Rust source (overflow wraps; division by zero and out-of-bounds indexing
panic, modelled as `none`).
-/

/-- Resampling filters, re-exported by the crate from `image::imageops::FilterType`. -/
inductive FilterType where
  | Nearest
  | Triangle
  | CatmullRom
  | Gaussian
  | Lanczos3
deriving DecidableEq

/-- `pub struct ImageOp { width: u8, height: u8, filter: FilterType }`.
The `u8` fields are modelled as `Nat`; theorems carry `≤ 255` range
hypotheses where they matter. -/
structure ImageOp where
  width : Nat
  height : Nat
  filter : FilterType
deriving DecidableEq

/-- `pub fn average_hash(image, op) -> Vec<bool>` (src/lib.rs:83-90), after the
external preprocessing (`grayscale().resize_exact(...)` followed by
`into_luma8().into_raw()`) which yields the `pixels` buffer.

Source line 88 sums the pixels in a `u16` accumulator (wrapping mod 2^16 in
release builds) and divides by `(op.width * op.height) as u16`, where the
product is computed in `u8` (wrapping mod 2^8); a zero divisor is a
division-by-zero panic, modelled as `none`.  Line 89 emits one bit per
pixel: `v as u16 > average`. -/
def average_hash (op : ImageOp) (pixels : List Nat) : Option (List Bool) :=
  let sum16 : Nat := pixels.foldl (fun a i => (a + i) % 65536) 0
  let divisor : Nat := (op.width * op.height) % 256
  if divisor = 0 then none
  else
    let average := sum16 / divisor
    some (pixels.map (fun v => decide (average < v)))

/-- `pub struct AverageHash<'a> { op: &'a ImageOp }` (the borrowed `ImageOp`
is modelled by value). -/
structure AverageHash where
  op : ImageOp
deriving DecidableEq

/-- `impl Default for AverageHash` (src/lib.rs:69-80). -/
def AverageHash.default : AverageHash :=
  ⟨⟨8, 8, FilterType.Lanczos3⟩⟩

/-- `AverageHash::new` (src/lib.rs:52-54): delegates to `default()`. -/
def AverageHash.new : AverageHash :=
  AverageHash.default

/-- `AverageHash::with_op` (src/lib.rs:57-59). -/
def AverageHash.with_op (op : ImageOp) : AverageHash :=
  ⟨op⟩

/-- `pub struct DifferenceHash<'a> { op: &'a ImageOp }`. -/
structure DifferenceHash where
  op : ImageOp
deriving DecidableEq

/-- `impl Default for DifferenceHash` (src/lib.rs:116-127). -/
def DifferenceHash.default : DifferenceHash :=
  ⟨⟨9, 8, FilterType.Lanczos3⟩⟩

/-- `DifferenceHash::new` (src/lib.rs:99-101): delegates to `default()`. -/
def DifferenceHash.new : DifferenceHash :=
  DifferenceHash.default

/-- `DifferenceHash::with_op` (src/lib.rs:104-106). -/
def DifferenceHash.with_op (op : ImageOp) : DifferenceHash :=
  ⟨op⟩

/-- One iteration of the inner loop body of `difference_hash`
(src/lib.rs:138-140):

```
let offset_p = (y * op.width + x) as usize;
let offset_b = (y * (op.width - 1) + x) as usize;
bits[offset_b] = pixels[offset_p + 1] > pixels[offset_p];
```

`y`, `x`, `op.width` are `u8`, so the offset arithmetic wraps mod 2^8
(release profile); `op.width - 1` also wraps.  Out-of-bounds indexing into
`pixels` or `bits` is a panic, modelled as `none`. -/
def dhStep (op : ImageOp) (pixels : List Nat) (y : Nat) (bits : List Bool) (x : Nat) :
    Option (List Bool) :=
  let offset_p := (y * op.width + x) % 256
  let offset_b := (y * ((op.width + 255) % 256) + x) % 256
  match pixels.get? (offset_p + 1), pixels.get? offset_p with
  | some p1, some p0 =>
      if offset_b < bits.length then some (bits.set offset_b (decide (p0 < p1))) else none
  | _, _ => none

/-- `pub fn difference_hash(image, op) -> Vec<bool>` (src/lib.rs:130-144),
after the external preprocessing which yields the `pixels` buffer.

Line 135 allocates `vec![false; ((op.width - 1) * op.height) as usize]`
(the `u8` subtraction and product wrap mod 2^8 in release builds); the
nested loops over `y in 0..op.height` and `x in 0..op.width - 1` then fill
the vector via `dhStep`. -/
def difference_hash (op : ImageOp) (pixels : List Nat) : Option (List Bool) :=
  let wm1 := (op.width + 255) % 256
  let init := List.replicate ((wm1 * op.height) % 256) false
  (List.range op.height).foldlM
    (fun bits y => (List.range wm1).foldlM (fun b x => dhStep op pixels y b x) bits)
    init

/-- Loop body of `bits_to_bytes` (src/lib.rs:148-152):
`if *bit { bytes[i / 8] |= 1 << (7 - (i % 8)); }`. -/
def packStep (bytes : List Nat) (iv : Nat × Bool) : List Nat :=
  if iv.2 then
    bytes.set (iv.1 / 8) ((bytes.getD (iv.1 / 8) 0) ||| (1 <<< (7 - iv.1 % 8)))
  else bytes

/-- `fn bits_to_bytes(bits: &[bool]) -> Vec<u8>` (src/lib.rs:146-154):
allocates `vec![0; (bits.len() + 7) / 8]` and ORs each set bit into byte
`i / 8` at position `7 - (i % 8)`. -/
def bits_to_bytes (bits : List Bool) : List Nat :=
  bits.enum.foldl packStep (List.replicate ((bits.length + 7) / 8) 0)

/-- One lowercase hexadecimal digit, as produced by Rust's `{:x}` formatting
for a value in `0..16`. -/
def hexChar (n : Nat) : Char :=
  if n < 10 then Char.ofNat (48 + n) else Char.ofNat (87 + n)

/-- The two characters `format!("{:02x}", b)` produces for a byte `b < 256`:
the high nibble then the low nibble, each as a lowercase hex digit (the
leading digit is `'0'` when `b < 0x10`). -/
def byteHexChars (b : Nat) : List Char :=
  [hexChar (b / 16), hexChar (b % 16)]

/-- `fn bytes_to_hex(bytes: &[u8]) -> String` (src/lib.rs:156-162): starts
from the empty string and pushes `format!("{:02x}", byte)` for each byte. -/
def bytes_to_hex (bytes : List Nat) : String :=
  String.mk (bytes.foldl (fun acc b => acc ++ byteHexChars b) [])

/-- `AverageHash::hash` (src/lib.rs:62-66): bit derivation, bit packing,
hex encoding.  `none` when the bit derivation panics. -/
def AverageHash.hash (h : AverageHash) (pixels : List Nat) : Option String :=
  (average_hash h.op pixels).map (fun bits => bytes_to_hex (bits_to_bytes bits))

/-- `DifferenceHash::hash` (src/lib.rs:109-113). -/
def DifferenceHash.hash (h : DifferenceHash) (pixels : List Nat) : Option String :=
  (difference_hash h.op pixels).map (fun bits => bytes_to_hex (bits_to_bytes bits))

/-- Tests that a character is drawn from `[0-9a-f]`: a decimal digit or one of the six
lowercase hex letters. -/
def isHexLower (c : Char) : Bool :=
  (decide (('0' : Char) ≤ c ∧ c ≤ ('9' : Char))) || (decide (('a' : Char) ≤ c ∧ c ≤ ('f' : Char)))

/-! ## General helper lemmas -/

theorem get?_eq_some_getD {α : Type} (l : List α) (i : Nat) (d : α) (h : i < l.length) :
    l.get? i = some (l.getD i d) := by
  simp only [List.getD_eq_getElem?_getD, List.get?_eq_getElem?]
  rw [List.getElem?_eq_getElem h]
  rfl

theorem getD_eq_of_get? {α : Type} {l : List α} {i : Nat} {v : α} (d : α)
    (h : l.get? i = some v) : l.getD i d = v := by
  simp only [List.getD_eq_getElem?_getD, ← List.get?_eq_getElem?, h]
  rfl

theorem foldlM_eq_foldl_of_some {α β : Type} (f : β → α → Option β) (g : β → α → β)
    (P : β → Prop) :
    ∀ (l : List α) (b : β), P b →
      (∀ b2 a, P b2 → a ∈ l → f b2 a = some (g b2 a) ∧ P (g b2 a)) →
      List.foldlM f b l = some (List.foldl g b l) := by
  intro l
  induction l with
  | nil => intro b hb hstep; simp
  | cons a l ih =>
    intro b hb hstep
    have h1 := hstep b a hb (by simp)
    rw [List.foldlM_cons, h1.1]
    show (some (g b a)).bind _ = _
    rw [Option.some_bind, List.foldl_cons]
    exact ih (g b a) h1.2 (fun b2 a2 hP hmem => hstep b2 a2 hP (by simp [hmem]))

theorem foldl_length_eq {α β : Type} (g : List β → α → List β)
    (hg : ∀ b a, (g b a).length = b.length) :
    ∀ (l : List α) (b : List β), (List.foldl g b l).length = b.length := by
  intro l
  induction l with
  | nil => simp
  | cons a l ih => intro b; rw [List.foldl_cons, ih, hg]

theorem foldl_range_set_get? (c : Nat → Bool) (start : Nat) :
    ∀ (k : Nat) (b : List Bool), start + k ≤ b.length → ∀ j,
      ((List.range k).foldl (fun bits x => bits.set (start + x) (c x)) b).get? j =
        if start ≤ j ∧ j < start + k then some (c (j - start)) else b.get? j := by
  intro k
  induction k with
  | zero =>
    intro b _ j
    rw [List.range_zero, List.foldl_nil, if_neg (by omega)]
  | succ k ih =>
    intro b hb j
    rw [List.range_succ, List.foldl_append, List.foldl_cons, List.foldl_nil]
    have hlen : ((List.range k).foldl (fun bits x => bits.set (start + x) (c x)) b).length
        = b.length :=
      foldl_length_eq _ (fun b2 a => List.length_set b2 (start + a) (c a)) _ b
    by_cases hj : j = start + k
    · subst hj
      rw [List.get?_set_eq_of_lt _ (by omega)]
      rw [if_pos (by omega)]
      congr 1
      congr 1
      omega
    · rw [List.get?_set_ne _ _ (by omega)]
      rw [ih b (by omega) j]
      by_cases hcond : start ≤ j ∧ j < start + k
      · rw [if_pos hcond, if_pos (by omega)]
      · rw [if_neg hcond, if_neg (by omega)]

theorem nested_fold_get? (W h : Nat) (hW : 0 < W) (c : Nat → Nat → Bool) :
    ∀ n, n ≤ h → ∀ j,
      ((List.range n).foldl
          (fun b y => (List.range W).foldl (fun bits x => bits.set (y * W + x) (c y x)) b)
          (List.replicate (W * h) false)).get? j =
        if j < W * n then some (c (j / W) (j % W))
        else (List.replicate (W * h) false).get? j := by
  intro n
  induction n with
  | zero =>
    intro _ j
    rw [List.range_zero, List.foldl_nil, if_neg (by omega)]
  | succ n ih =>
    intro hn j
    rw [List.range_succ, List.foldl_append, List.foldl_cons, List.foldl_nil]
    have hlen : ((List.range n).foldl
        (fun b y => (List.range W).foldl (fun bits x => bits.set (y * W + x) (c y x)) b)
        (List.replicate (W * h) false)).length = W * h := by
      rw [foldl_length_eq _ (fun b y => foldl_length_eq _
        (fun b2 x => List.length_set b2 (y * W + x) (c y x)) _ b) _ _]
      exact List.length_replicate _ _
    have hstep := foldl_range_set_get? (c n) (n * W) W _ (by
      rw [hlen]
      have h2 : (n + 1) * W ≤ h * W := Nat.mul_le_mul_right W hn
      calc n * W + W = (n + 1) * W := by ring
      _ ≤ h * W := h2
      _ = W * h := Nat.mul_comm h W) j
    rw [hstep]
    have e1 : W * n = n * W := Nat.mul_comm W n
    have e2 : W * (n + 1) = n * W + W := by ring
    by_cases h1 : n * W ≤ j ∧ j < n * W + W
    · rw [if_pos h1, if_pos (by omega)]
      obtain ⟨r, hr, hrW⟩ : ∃ r, j = r + n * W ∧ r < W := ⟨j - n * W, by omega, by omega⟩
      subst hr
      rw [Nat.add_mul_div_right _ _ hW, Nat.add_mul_mod_self_right]
      rw [Nat.div_eq_of_lt hrW, Nat.mod_eq_of_lt hrW]
      simp
    · rw [if_neg h1, ih (by omega) j]
      by_cases h2 : j < W * n
      · rw [if_pos h2, if_pos (by omega)]
      · rw [if_neg h2, if_neg (by omega)]

theorem row_offset_lt (w h y x : Nat) (hy : y < h) (hx : x < w) : y * w + x < h * w := by
  have h1 : (y + 1) * w ≤ h * w := Nat.mul_le_mul_right w hy
  have h2 : y * w + x < (y + 1) * w := by
    have e : (y + 1) * w = y * w + w := by ring
    omega
  omega

/-! ## Running `difference_hash` under the no-wrap precondition -/

theorem dhStep_eq (w h : Nat) (filt : FilterType) (pixels : List Nat) (y x : Nat)
    (b : List Bool)
    (hw1 : 1 ≤ w) (hw255 : w ≤ 255) (hwh : w * h ≤ 255)
    (hlen : pixels.length = w * h)
    (hy : y < h) (hx : x < w - 1) (hb : b.length = (w - 1) * h) :
    dhStep ⟨w, h, filt⟩ pixels y b x =
      some (b.set (y * (w - 1) + x)
        (decide (pixels.getD (y * w + x) 0 < pixels.getD (y * w + x + 1) 0))) := by
  have hp : y * w + (x + 1) < h * w := row_offset_lt w h y (x + 1) hy (by omega)
  have hcomm : h * w = w * h := Nat.mul_comm h w
  have hpw : y * w + x + 1 < w * h := by omega
  have hop : (y * w + x) % 256 = y * w + x := Nat.mod_eq_of_lt (by omega)
  have hwm1 : (w + 255) % 256 = w - 1 := by omega
  have hble : (w - 1) * h ≤ w * h := Nat.mul_le_mul_right h (by omega)
  have hb1 : y * (w - 1) + x < (w - 1) * h := by
    have := row_offset_lt (w - 1) h y x hy hx
    have := Nat.mul_comm h (w - 1)
    omega
  have hob : (y * (w - 1) + x) % 256 = y * (w - 1) + x := Nat.mod_eq_of_lt (by omega)
  unfold dhStep
  simp only [hwm1, hop, hob]
  rw [get?_eq_some_getD pixels (y * w + x + 1) 0 (by omega),
    get?_eq_some_getD pixels (y * w + x) 0 (by omega)]
  show (if y * (w - 1) + x < b.length then
      some (b.set (y * (w - 1) + x)
        (decide (pixels.getD (y * w + x) 0 < pixels.getD (y * w + x + 1) 0)))
    else none) = _
  rw [if_pos (by omega)]

theorem difference_hash_eq_pure (w h : Nat) (filt : FilterType) (pixels : List Nat)
    (hw1 : 1 ≤ w) (hw255 : w ≤ 255) (hwh : w * h ≤ 255)
    (hlen : pixels.length = w * h) :
    difference_hash ⟨w, h, filt⟩ pixels = some ((List.range h).foldl
      (fun b y => (List.range (w - 1)).foldl
        (fun bits x => bits.set (y * (w - 1) + x)
          (decide (pixels.getD (y * w + x) 0 < pixels.getD (y * w + x + 1) 0))) b)
      (List.replicate ((w - 1) * h) false)) := by
  have hwm1 : (w + 255) % 256 = w - 1 := by omega
  have hble : (w - 1) * h ≤ w * h := Nat.mul_le_mul_right h (by omega)
  have hallo : ((w - 1) * h) % 256 = (w - 1) * h := Nat.mod_eq_of_lt (by omega)
  unfold difference_hash
  simp only [hwm1, hallo]
  apply foldlM_eq_foldl_of_some _ _ (fun bits => bits.length = (w - 1) * h)
  · exact List.length_replicate _ _
  · intro b2 y hP hy
    rw [List.mem_range] at hy
    refine ⟨?_, ?_⟩
    · apply foldlM_eq_foldl_of_some _ _ (fun bits => bits.length = (w - 1) * h)
      · exact hP
      · intro b3 x hP3 hx
        rw [List.mem_range] at hx
        refine ⟨?_, ?_⟩
        · exact dhStep_eq w h filt pixels y x b3 hw1 hw255 hwh hlen hy hx hP3
        · rw [List.length_set]; exact hP3
    · rw [foldl_length_eq _ (fun b4 x => List.length_set b4 (y * (w - 1) + x) _) _ b2]
      exact hP

theorem foldl_id_fixed {α β : Type} : ∀ (l : List α) (b : β), List.foldl (fun b _ => b) b l = b := by
  intro l
  induction l with
  | nil => intro b; rfl
  | cons a l ih => intro b; rw [List.foldl_cons]; exact ih b

theorem difference_hash_pure_length (w h : Nat) (filt : FilterType) (pixels : List Nat)
    (hw1 : 1 ≤ w) (hw255 : w ≤ 255) (hwh : w * h ≤ 255)
    (hlen : pixels.length = w * h) :
    (difference_hash ⟨w, h, filt⟩ pixels).map List.length = some ((w - 1) * h) := by
  rw [difference_hash_eq_pure w h filt pixels hw1 hw255 hwh hlen]
  rw [Option.map_some']
  congr 1
  rw [foldl_length_eq _ (fun b y => foldl_length_eq _
    (fun b2 x => List.length_set b2 (y * (w - 1) + x) _) _ b) _ _]
  exact List.length_replicate _ _

theorem difference_hash_isSome (w h : Nat) (filt : FilterType) (pixels : List Nat)
    (hw1 : 1 ≤ w) (hw255 : w ≤ 255) (hwh : w * h ≤ 255)
    (hlen : pixels.length = w * h) :
    (difference_hash ⟨w, h, filt⟩ pixels).isSome = true := by
  rw [difference_hash_eq_pure w h filt pixels hw1 hw255 hwh hlen]
  rfl

theorem difference_hash_bit (w h : Nat) (filt : FilterType) (pixels : List Nat) (y x : Nat)
    (hw2 : 2 ≤ w) (hw255 : w ≤ 255) (hwh : w * h ≤ 255)
    (hlen : pixels.length = w * h) (hy : y < h) (hx : x < w - 1) :
    ((difference_hash ⟨w, h, filt⟩ pixels).getD []).getD (y * (w - 1) + x) false =
      decide (pixels.getD (y * w + x) 0 < pixels.getD (y * w + x + 1) 0) := by
  rw [difference_hash_eq_pure w h filt pixels (by omega) hw255 hwh hlen]
  rw [Option.getD_some]
  apply getD_eq_of_get?
  have hW : 0 < w - 1 := by omega
  have hchar := nested_fold_get? (w - 1) h hW
    (fun y2 x2 => decide (pixels.getD (y2 * w + x2) 0 < pixels.getD (y2 * w + x2 + 1) 0))
    h (le_refl h) (y * (w - 1) + x)
  have hj : y * (w - 1) + x < (w - 1) * h := by
    have h2 := row_offset_lt (w - 1) h y x hy hx
    have h3 := Nat.mul_comm h (w - 1)
    omega
  rw [hchar, if_pos hj]
  have e : y * (w - 1) + x = x + y * (w - 1) := by ring
  rw [e, Nat.add_mul_div_right _ _ hW, Nat.add_mul_mod_self_right]
  rw [Nat.div_eq_of_lt hx, Nat.mod_eq_of_lt hx]
  simp

theorem difference_hash_width_one (h : Nat) (filt : FilterType) (pixels : List Nat) :
    difference_hash ⟨1, h, filt⟩ pixels = some [] := by
  unfold difference_hash
  norm_num
  have hres := foldlM_eq_foldl_of_some
    (fun (bits : List Bool) (_ : Nat) => (List.range 0).foldlM
      (fun b x => dhStep ⟨1, h, filt⟩ pixels 0 b x) bits)
    (fun b _ => b) (fun _ => True) (List.range h) [] trivial
    (fun b2 a _ _ => ⟨rfl, trivial⟩)
  rw [foldl_id_fixed] at hres
  convert hres using 2

/-! ## Running `average_hash` under the no-overflow precondition -/

theorem foldl_mod_sum : ∀ (l : List Nat) (a : Nat), a < 65536 →
    l.foldl (fun a2 i => (a2 + i) % 65536) a = (a + l.sum) % 65536 := by
  intro l
  induction l with
  | nil => intro a ha; simp [Nat.mod_eq_of_lt ha]
  | cons x xs ih =>
    intro a ha
    rw [List.foldl_cons, ih _ (Nat.mod_lt _ (by omega)), List.sum_cons]
    rw [Nat.mod_add_mod]
    congr 1
    omega

theorem sum_le_mul_length : ∀ (l : List Nat), (∀ p ∈ l, p < 256) → l.sum ≤ 255 * l.length := by
  intro l
  induction l with
  | nil => intro _; simp
  | cons x xs ih =>
    intro hb
    rw [List.sum_cons, List.length_cons]
    have h1 : x < 256 := hb x (by simp)
    have h2 := ih (fun p hp => hb p (by simp [hp]))
    have h3 : 255 * (xs.length + 1) = 255 * xs.length + 255 := by ring
    omega

theorem average_hash_eq_pure (w h : Nat) (filt : FilterType) (pixels : List Nat)
    (h1 : 1 ≤ w * h) (hwh : w * h ≤ 255) (hlen : pixels.length = w * h)
    (hpix : ∀ p ∈ pixels, p < 256) :
    average_hash ⟨w, h, filt⟩ pixels =
      some (pixels.map (fun v => decide (pixels.sum / (w * h) < v))) := by
  have hdiv : (w * h) % 256 = w * h := Nat.mod_eq_of_lt (by omega)
  have hsum : pixels.sum ≤ 255 * pixels.length := sum_le_mul_length pixels hpix
  have hs : pixels.sum < 65536 := by
    rw [hlen] at hsum
    have h2 : 255 * (w * h) ≤ 255 * 255 := Nat.mul_le_mul_left 255 hwh
    omega
  unfold average_hash
  simp only [hdiv]
  rw [if_neg (by omega)]
  rw [foldl_mod_sum pixels 0 (by omega)]
  rw [Nat.zero_add, Nat.mod_eq_of_lt hs]

theorem average_hash_length (w h : Nat) (filt : FilterType) (pixels : List Nat)
    (h1 : 1 ≤ w * h) (hwh : w * h ≤ 255) :
    (average_hash ⟨w, h, filt⟩ pixels).map List.length = some pixels.length := by
  have hdiv : (w * h) % 256 = w * h := Nat.mod_eq_of_lt (by omega)
  unfold average_hash
  simp only [hdiv]
  rw [if_neg (by omega)]
  rw [Option.map_some']
  rw [List.length_map]

/-! ## Characterizing `bits_to_bytes` -/

theorem getD_set_ne {α : Type} (l : List α) (i j : Nat) (a d : α) (h : i ≠ j) :
    (l.set i a).getD j d = l.getD j d := by
  rw [List.getD_eq_getElem?_getD, List.getD_eq_getElem?_getD,
    ← List.get?_eq_getElem?, ← List.get?_eq_getElem?, List.get?_set_ne _ _ h]

theorem getD_set_eq_of_lt {α : Type} (l : List α) (i : Nat) (a d : α) (h : i < l.length) :
    (l.set i a).getD i d = a :=
  getD_eq_of_get? d (List.get?_set_eq_of_lt _ h)

theorem getD_replicate_self {α : Type} (n : Nat) (a : α) (i : Nat) :
    (List.replicate n a).getD i a = a := by
  rw [List.getD_eq_getElem?_getD, List.getElem?_replicate]
  by_cases h : i < n
  · rw [if_pos h]; rfl
  · rw [if_neg h]; rfl

theorem packStep_testBit (bytes : List Nat) (k : Nat) (b : Bool) (j x : Nat)
    (hk : k / 8 < bytes.length) :
    (((packStep bytes (k, b)).getD j 0).testBit x = true ↔
      ((bytes.getD j 0).testBit x = true ∨ (b = true ∧ k = 8 * j + (7 - x) ∧ x < 8))) := by
  unfold packStep
  cases b with
  | false => simp
  | true =>
    simp only [if_pos]
    have hr8 : k % 8 < 8 := Nat.mod_lt _ (by omega)
    have hdm : 8 * (k / 8) + k % 8 = k := Nat.div_add_mod k 8
    by_cases hj : j = k / 8
    · subst hj
      rw [getD_set_eq_of_lt _ _ _ _ hk]
      rw [Nat.shiftLeft_eq, one_mul, Nat.testBit_or, Nat.testBit_two_pow]
      rw [Bool.or_eq_true, decide_eq_true_eq]
      constructor
      · rintro (h | h)
        · exact Or.inl h
        · exact Or.inr ⟨by trivial, by omega, by omega⟩
      · rintro (h | ⟨-, h2, h3⟩)
        · exact Or.inl h
        · exact Or.inr (by omega)
    · rw [getD_set_ne _ _ _ _ _ (fun e => hj e.symm)]
      constructor
      · exact Or.inl
      · rintro (h | ⟨-, h2, h3⟩)
        · exact h
        · exfalso
          apply hj
          omega

theorem pack_fold_testBit : ∀ (bs : List Bool) (k : Nat) (bytes : List Nat),
    (∀ r, r < bs.length → (k + r) / 8 < bytes.length) →
    (((List.enumFrom k bs).foldl packStep bytes).length = bytes.length ∧
     ∀ j x, ((((List.enumFrom k bs).foldl packStep bytes).getD j 0).testBit x = true ↔
       ((bytes.getD j 0).testBit x = true ∨
        ∃ r, r < bs.length ∧ bs.getD r false = true ∧ k + r = 8 * j + (7 - x) ∧ x < 8))) := by
  intro bs
  induction bs with
  | nil =>
    intro k bytes _
    refine ⟨rfl, ?_⟩
    intro j x
    simp
  | cons b bs ih =>
    intro k bytes hrange
    have hk : k / 8 < bytes.length := by
      have h0 := hrange 0 (by simp)
      simpa using h0
    have hstep_len : (packStep bytes (k, b)).length = bytes.length := by
      unfold packStep
      cases b
      · simp
      · simp [List.length_set]
    have hih := ih (k + 1) (packStep bytes (k, b)) (fun r hr => by
      rw [hstep_len]
      have h2 := hrange (r + 1) (by simpa using Nat.succ_lt_succ hr)
      have e : k + (r + 1) = k + 1 + r := by omega
      rw [e] at h2
      exact h2)
    rw [show List.enumFrom k (b :: bs) = (k, b) :: List.enumFrom (k + 1) bs from rfl]
    rw [List.foldl_cons]
    refine ⟨by rw [hih.1, hstep_len], ?_⟩
    intro j x
    rw [hih.2 j x]
    rw [packStep_testBit bytes k b j x hk]
    constructor
    · rintro ((h | ⟨hb, heq, hx⟩) | ⟨r, hr, hget, heq, hx⟩)
      · exact Or.inl h
      · exact Or.inr ⟨0, by simp, by simpa using hb, by omega, hx⟩
      · exact Or.inr ⟨r + 1, by simpa using Nat.succ_lt_succ hr, by simpa using hget,
          by omega, hx⟩
    · rintro (h | ⟨r, hr, hget, heq, hx⟩)
      · exact Or.inl (Or.inl h)
      · cases r with
        | zero => exact Or.inl (Or.inr ⟨by simpa using hget, by omega, hx⟩)
        | succ r2 => exact Or.inr ⟨r2,
            by simp only [List.length_cons] at hr; omega,
            by simpa using hget, by omega, hx⟩

theorem bits_to_bytes_length (bits : List Bool) :
    (bits_to_bytes bits).length = (bits.length + 7) / 8 := by
  unfold bits_to_bytes
  rw [show bits.enum = List.enumFrom 0 bits from rfl]
  rw [(pack_fold_testBit bits 0 (List.replicate ((bits.length + 7) / 8) 0)
    (fun r hr => by rw [List.length_replicate]; omega)).1]
  exact List.length_replicate _ _

theorem bits_to_bytes_testBit (bits : List Bool) (j x : Nat) :
    (((bits_to_bytes bits).getD j 0).testBit x = true ↔
      ∃ r, r < bits.length ∧ bits.getD r false = true ∧ r = 8 * j + (7 - x) ∧ x < 8) := by
  unfold bits_to_bytes
  rw [show bits.enum = List.enumFrom 0 bits from rfl]
  rw [(pack_fold_testBit bits 0 (List.replicate ((bits.length + 7) / 8) 0)
    (fun r hr => by rw [List.length_replicate]; omega)).2 j x]
  rw [getD_replicate_self]
  simp [Nat.zero_testBit]

/-! ## Characterizing `bytes_to_hex` -/

theorem hex_fold_eq : ∀ (bytes : List Nat) (acc : List Char),
    bytes.foldl (fun acc2 b => acc2 ++ byteHexChars b) acc = acc ++ bytes.flatMap byteHexChars := by
  intro bytes
  induction bytes with
  | nil => intro acc; simp
  | cons b bs ih =>
    intro acc
    rw [List.foldl_cons, ih, List.flatMap_cons, List.append_assoc]

theorem bytes_to_hex_data (bytes : List Nat) :
    (bytes_to_hex bytes).data = bytes.flatMap byteHexChars := by
  show (bytes.foldl (fun acc2 b => acc2 ++ byteHexChars b) []) = _
  rw [hex_fold_eq, List.nil_append]

theorem flatMap_hex_length : ∀ (bytes : List Nat),
    (bytes.flatMap byteHexChars).length = 2 * bytes.length := by
  intro bytes
  induction bytes with
  | nil => rfl
  | cons b bs ih =>
    rw [List.flatMap_cons, List.length_append, ih, List.length_cons]
    show 2 + 2 * bs.length = 2 * (bs.length + 1)
    ring

theorem hexChar_mem (n : Nat) (h : n < 16) : isHexLower (hexChar n) = true := by
  have hall : ∀ m, m < 16 → isHexLower (hexChar m) = true := by decide
  exact hall n h

theorem flatMap_hex_get? : ∀ (bytes : List Nat) (i : Nat), i < bytes.length →
    ((bytes.flatMap byteHexChars).get? (2 * i) = some (hexChar (bytes.getD i 0 / 16)) ∧
     (bytes.flatMap byteHexChars).get? (2 * i + 1) = some (hexChar (bytes.getD i 0 % 16))) := by
  intro bytes
  induction bytes with
  | nil => intro i hi; simp at hi
  | cons b bs ih =>
    intro i hi
    rw [List.flatMap_cons]
    cases i with
    | zero => exact ⟨rfl, rfl⟩
    | succ i2 =>
      have hib : i2 < bs.length := by simp only [List.length_cons] at hi; omega
      have e1 : 2 * (i2 + 1) = 2 * i2 + 1 + 1 := by ring
      have e2 : 2 * (i2 + 1) + 1 = (2 * i2 + 1) + 1 + 1 := by ring
      refine ⟨?_, ?_⟩
      · rw [e1]
        show (bs.flatMap byteHexChars).get? (2 * i2) = _
        exact (ih i2 hib).1
      · rw [e2]
        show (bs.flatMap byteHexChars).get? (2 * i2 + 1) = _
        exact (ih i2 hib).2

/-! ## Claims -/

/-- C1: the claim requires `average_hash` to compute `mean = floor(sum / (width*height))`
with a sum accumulated in a 32-bit-or-larger unsigned accumulator (not 8/16-bit) and a
divisor `width*height` computed without wrapping, for every configuration with
`1 ≤ width, height ≤ 255`.  The code violates this: line 88 sums into a `u16` and
computes the divisor as a `u8` product.  At `width = height = 16` the `u8` product
`16*16` wraps to `0` and the division panics (debug builds panic at the multiply
itself), observed here as the evaluation of the embedded code to `none` on a 16×16
all-zero grid. -/
theorem c1_average_mean_overflow :
    average_hash ⟨16, 16, FilterType.Lanczos3⟩ (List.replicate 256 0) = none := by
  rfl

/-- C2 counterexample: `ImageOp` is a plain struct with public fields and no validating
constructor, so a configuration with `width = 0` is accepted at construction (the value
exists and its fields read back), and the failure only surfaces when `hash` is called
(division by zero in the mean computation, modelled as `none`).  This refutes the claim
that invalid configurations are rejected with a construction-time failure. -/
theorem c2_construction_not_rejected :
    (ImageOp.mk 0 8 FilterType.Lanczos3).width = 0 ∧
    (ImageOp.mk 0 8 FilterType.Lanczos3).height = 8 ∧
    AverageHash.hash (AverageHash.with_op (ImageOp.mk 0 8 FilterType.Lanczos3)) [] = none :=
  ⟨rfl, rfl, rfl⟩

/-- C2 amended: an invalid configuration (`width = 0` or `height = 0`) is accepted when
the `ImageOp` is constructed (no validation exists), and the failure is deferred to hash
time: `AverageHash::hash` panics with a division by zero (modelled as `none`) for every
pixel buffer. -/
theorem c2_invalid_config_fails_at_hash_time (op : ImageOp) (pixels : List Nat)
    (hz : op.width = 0 ∨ op.height = 0) :
    AverageHash.hash (AverageHash.with_op op) pixels = none := by
  obtain ⟨w, h, filt⟩ := op
  rcases hz with h0 | h0
  · simp only at h0
    subst h0
    simp [AverageHash.hash, AverageHash.with_op, average_hash]
  · simp only at h0
    subst h0
    simp [AverageHash.hash, AverageHash.with_op, average_hash]

/-- C2 witness: the amended theorem at a concrete invalid configuration. -/
theorem c2_invalid_config_fails_at_hash_time_witness :
    ((ImageOp.mk 0 3 FilterType.Nearest).width = 0 ∨
      (ImageOp.mk 0 3 FilterType.Nearest).height = 0) ∧
    AverageHash.hash (AverageHash.with_op (ImageOp.mk 0 3 FilterType.Nearest)) [1, 2] = none :=
  ⟨Or.inl rfl,
    c2_invalid_config_fails_at_hash_time (ImageOp.mk 0 3 FilterType.Nearest) [1, 2] (Or.inl rfl)⟩

/-- C6: a configuration with `width = 1` (and any height) is degenerate but valid for
`difference_hash`: the inner loop `0..width-1` is empty, no index is ever touched, and
the function returns the zero-length bit vector without any failure, for every input
pixel buffer. -/
theorem c6_width_one_degenerate (hgt : Nat) (filt : FilterType) (pixels : List Nat)
    (hh1 : 1 ≤ hgt) :
    difference_hash ⟨1, hgt, filt⟩ pixels = some [] ∧
    (difference_hash ⟨1, hgt, filt⟩ pixels).map List.length = some 0 :=
  ⟨difference_hash_width_one hgt filt pixels,
    by rw [difference_hash_width_one hgt filt pixels]; rfl⟩

/-- C6 witness: the theorem at a concrete height and pixel buffer. -/
theorem c6_width_one_degenerate_witness :
    1 ≤ 8 ∧ difference_hash ⟨1, 8, FilterType.Triangle⟩ [3, 3] = some [] :=
  ⟨by decide, (c6_width_one_degenerate 8 FilterType.Triangle [3, 3] (by decide)).1⟩

/-- C7: the default `AverageHash` configuration is an 8×8 grid and the default
`DifferenceHash` configuration is a 9×8 grid (so `width - 1 = 8` comparison columns per
row), both with the `Lanczos3` resampling filter (the same Lanczos-class filter), and
`new()` produces the same value as `default()`. -/
theorem c7_defaults :
    AverageHash.default.op.width = 8 ∧ AverageHash.default.op.height = 8 ∧
    AverageHash.default.op.filter = FilterType.Lanczos3 ∧
    DifferenceHash.default.op.width = 9 ∧ DifferenceHash.default.op.height = 8 ∧
    DifferenceHash.default.op.width - 1 = 8 ∧
    DifferenceHash.default.op.filter = FilterType.Lanczos3 ∧
    AverageHash.default.op.filter = DifferenceHash.default.op.filter ∧
    AverageHash.new = AverageHash.default ∧
    DifferenceHash.new = DifferenceHash.default :=
  ⟨rfl, rfl, rfl, rfl, rfl, rfl, rfl, rfl, rfl, rfl⟩

/-- C3 counterexample: the length invariant does not hold for every valid configuration
with `1 ≤ width, height ≤ 255`.  At the valid configuration 16×16, `average_hash`
panics (the `u8` divisor product `16*16` wraps to `0`, then division by zero) instead of
returning a bit vector of length `16*16 = 256`; the embedded code evaluates to `none`
on a 16×16 grid of constant luminance 7. -/
theorem c3_length_counterexample :
    average_hash ⟨16, 16, FilterType.Lanczos3⟩ (List.replicate 256 7) = none ∧
    (average_hash ⟨16, 16, FilterType.Lanczos3⟩ (List.replicate 256 7)).map List.length ≠
      some (16 * 16) := by
  refine ⟨rfl, ?_⟩
  intro hcon
  rw [show average_hash ⟨16, 16, FilterType.Lanczos3⟩ (List.replicate 256 7) = none from rfl]
    at hcon
  exact Option.noConfusion hcon

/-- C3 amended: for every configuration with `1 ≤ width`, `1 ≤ height` and additionally
`width * height ≤ 255` (so that no `u8` arithmetic in either function wraps; this covers
both library defaults), and every preprocessed buffer of length `width * height`, the
bit vector returned by `average_hash` has length `width * height` and the one returned
by `difference_hash` has length `(width - 1) * height`. -/
theorem c3_length_invariants (op : ImageOp) (pixels : List Nat)
    (hw1 : 1 ≤ op.width) (hh1 : 1 ≤ op.height) (hwh : op.width * op.height ≤ 255)
    (hlen : pixels.length = op.width * op.height) :
    (average_hash op pixels).map List.length = some (op.width * op.height) ∧
    (difference_hash op pixels).map List.length = some ((op.width - 1) * op.height) := by
  obtain ⟨w, h, filt⟩ := op
  simp only at hw1 hh1 hwh hlen ⊢
  have h1 : 1 ≤ w * h := by
    have h2 := Nat.mul_le_mul hw1 hh1
    omega
  have hw255 : w ≤ 255 := by
    have h3 : w * 1 ≤ w * h := Nat.mul_le_mul_left w hh1
    have h4 : w * 1 = w := Nat.mul_one w
    omega
  refine ⟨?_, ?_⟩
  · rw [average_hash_length w h filt pixels h1 hwh, hlen]
  · exact difference_hash_pure_length w h filt pixels hw1 hw255 hwh hlen

/-- C3 witness: the amended theorem at a concrete 2×2 configuration. -/
theorem c3_length_invariants_witness :
    (1 ≤ (2 : Nat) ∧ 1 ≤ (2 : Nat) ∧ 2 * 2 ≤ 255 ∧
      ([10, 20, 30, 40] : List Nat).length = 2 * 2) ∧
    (average_hash ⟨2, 2, FilterType.Lanczos3⟩ [10, 20, 30, 40]).map List.length =
      some (2 * 2) ∧
    (difference_hash ⟨2, 2, FilterType.Lanczos3⟩ [10, 20, 30, 40]).map List.length =
      some ((2 - 1) * 2) :=
  ⟨⟨by decide, by decide, by decide, by decide⟩,
    (c3_length_invariants ⟨2, 2, FilterType.Lanczos3⟩ [10, 20, 30, 40]
      (by decide) (by decide) (by decide) (by decide)).1,
    (c3_length_invariants ⟨2, 2, FilterType.Lanczos3⟩ [10, 20, 30, 40]
      (by decide) (by decide) (by decide) (by decide)).2⟩

/-- Pixel grid for the C4 counterexample: a preprocessed 2×129 grid (258 8-bit
samples), all zero except the last sample, which is 1. -/
def c4pixels : List Nat :=
  List.replicate 256 0 ++ [0, 1]

set_option maxRecDepth 4096 in
/-- C4 counterexample: the claimed bit formula fails on a grid with `width = 2`,
`height = 129` (258 pixels, all 8-bit).  For row `y = 128`, column `x = 0`, the claim
requires bit `y*(width-1)+x = 128` to equal `pixel[257] > pixel[256]`, which is `true`
on `c4pixels`.  The code computes the pixel offset `y * width + x` in `u8`, which wraps
`128 * 2 = 256` to `0`, so the code compares `pixel[1] > pixel[0]` instead and stores
`false` (debug builds panic at the wrapped multiply instead). -/
theorem c4_bit_formula_counterexample :
    (difference_hash ⟨2, 129, FilterType.Lanczos3⟩ c4pixels).map
        (fun l => l.getD 128 false) = some false ∧
    decide (c4pixels.getD 256 0 < c4pixels.getD 257 0) = true := by
  constructor
  · decide
  · decide

/-- C4 amended: for every preprocessed grid of exactly `width * height` 8-bit pixels
with `width ≥ 2` and additionally `width * height ≤ 255` (so that the `u8` offset
arithmetic cannot wrap; this covers the library defaults), `difference_hash` returns a
bit vector whose bit at row-major index `y*(width-1)+x` equals
`pixel[y*width + x + 1] > pixel[y*width + x]` for each row `y < height` and column
`x < width - 1`. -/
theorem c4_bit_formula (op : ImageOp) (pixels : List Nat) (y x : Nat)
    (hw2 : 2 ≤ op.width) (hh1 : 1 ≤ op.height) (hwh : op.width * op.height ≤ 255)
    (hlen : pixels.length = op.width * op.height)
    (hy : y < op.height) (hx : x < op.width - 1) :
    (difference_hash op pixels).isSome = true ∧
    ((difference_hash op pixels).getD []).getD (y * (op.width - 1) + x) false =
      decide (pixels.getD (y * op.width + x) 0 < pixels.getD (y * op.width + x + 1) 0) := by
  obtain ⟨w, h, filt⟩ := op
  simp only at hw2 hh1 hwh hlen hy hx ⊢
  have hw255 : w ≤ 255 := by
    have h3 : w * 1 ≤ w * h := Nat.mul_le_mul_left w hh1
    have h4 : w * 1 = w := Nat.mul_one w
    omega
  exact ⟨difference_hash_isSome w h filt pixels (by omega) hw255 hwh hlen,
    difference_hash_bit w h filt pixels y x hw2 hw255 hwh hlen hy hx⟩

/-- C4 witness: the amended theorem at a concrete 3×2 grid, row 1, column 0. -/
theorem c4_bit_formula_witness :
    (2 ≤ (3 : Nat) ∧ 1 ≤ (2 : Nat) ∧ 3 * 2 ≤ 255 ∧
      ([1, 5, 2, 9, 7, 9] : List Nat).length = 3 * 2 ∧ 1 < 2 ∧ 0 < 3 - 1) ∧
    ((difference_hash ⟨3, 2, FilterType.Lanczos3⟩ [1, 5, 2, 9, 7, 9]).getD []).getD
        (1 * (3 - 1) + 0) false =
      decide (([1, 5, 2, 9, 7, 9] : List Nat).getD (1 * 3 + 0) 0 <
        ([1, 5, 2, 9, 7, 9] : List Nat).getD (1 * 3 + 0 + 1) 0) :=
  ⟨⟨by decide, by decide, by decide, by decide, by decide, by decide⟩,
    (c4_bit_formula ⟨3, 2, FilterType.Lanczos3⟩ [1, 5, 2, 9, 7, 9] 1 0
      (by decide) (by decide) (by decide) (by decide) (by decide) (by decide)).2⟩

/-- C5: for every preprocessed grid (of exactly `width * height` 8-bit pixels, under the
no-overflow precondition `1 ≤ width * height ≤ 255` on the mean computation),
`average_hash` returns exactly the map `pixel ↦ (pixel > mean)` with
`mean = floor(sum / (width*height))` and strict greater-than; in particular a pixel
whose value equals the mean yields bit `false`. -/
theorem c5_average_bit_strict (op : ImageOp) (pixels : List Nat)
    (h1 : 1 ≤ op.width * op.height) (hwh : op.width * op.height ≤ 255)
    (hlen : pixels.length = op.width * op.height)
    (hpix : ∀ p ∈ pixels, p < 256) :
    average_hash op pixels =
      some (pixels.map (fun v => decide (pixels.sum / (op.width * op.height) < v))) ∧
    ∀ i, i < pixels.length → pixels.getD i 0 = pixels.sum / (op.width * op.height) →
      ((average_hash op pixels).getD []).getD i false = false := by
  obtain ⟨w, h, filt⟩ := op
  simp only at h1 hwh hlen hpix ⊢
  have hmain := average_hash_eq_pure w h filt pixels h1 hwh hlen hpix
  refine ⟨hmain, ?_⟩
  intro i hi heq
  rw [hmain, Option.getD_some]
  have hget := List.get?_map (fun v => decide (pixels.sum / (w * h) < v)) pixels i
  rw [get?_eq_some_getD pixels i 0 hi, Option.map_some'] at hget
  rw [getD_eq_of_get? false hget, heq]
  simp

/-- C5 witness: the theorem at a concrete 2×2 grid with sum 8 and mean 2; the pixel at
index 2 equals the mean and yields `false`. -/
theorem c5_average_bit_strict_witness :
    (1 ≤ 2 * 2 ∧ 2 * 2 ≤ 255 ∧ ([0, 1, 2, 5] : List Nat).length = 2 * 2 ∧
      2 < ([0, 1, 2, 5] : List Nat).length ∧
      ([0, 1, 2, 5] : List Nat).getD 2 0 = ([0, 1, 2, 5] : List Nat).sum / (2 * 2)) ∧
    average_hash ⟨2, 2, FilterType.Lanczos3⟩ [0, 1, 2, 5] =
      some (([0, 1, 2, 5] : List Nat).map
        (fun v => decide (([0, 1, 2, 5] : List Nat).sum / (2 * 2) < v))) ∧
    ((average_hash ⟨2, 2, FilterType.Lanczos3⟩ [0, 1, 2, 5]).getD []).getD 2 false = false :=
  ⟨⟨by decide, by decide, by decide, by decide, by decide⟩,
    (c5_average_bit_strict ⟨2, 2, FilterType.Lanczos3⟩ [0, 1, 2, 5]
      (by decide) (by decide) (by decide) (by decide)).1,
    (c5_average_bit_strict ⟨2, 2, FilterType.Lanczos3⟩ [0, 1, 2, 5]
      (by decide) (by decide) (by decide) (by decide)).2 2 (by decide) (by decide)⟩

/-- C8: `bits_to_bytes` returns `ceil(len/8) = (len+7)/8` bytes; bit `i` of the input
is stored in byte `i/8` at bit position `7 - (i % 8)` (MSB-first); every unused bit
position (one addressing a bit index at or beyond the input length, in particular the
trailing positions of the final byte) is zero; the function is total (it never fails)
and the empty bit vector yields the empty byte vector. -/
theorem c8_pack_bits (bits : List Bool) :
    (bits_to_bytes bits).length = (bits.length + 7) / 8 ∧
    bits_to_bytes [] = [] ∧
    (∀ i, i < bits.length →
      ((bits_to_bytes bits).getD (i / 8) 0).testBit (7 - i % 8) = bits.getD i false) ∧
    (∀ j x, x < 8 → bits.length ≤ 8 * j + (7 - x) →
      ((bits_to_bytes bits).getD j 0).testBit x = false) := by
  refine ⟨bits_to_bytes_length bits, rfl, ?_, ?_⟩
  · intro i hi
    have hc := bits_to_bytes_testBit bits (i / 8) (7 - i % 8)
    cases hb : bits.getD i false with
    | true => exact hc.mpr ⟨i, hi, hb, by omega, by omega⟩
    | false =>
      cases ht : ((bits_to_bytes bits).getD (i / 8) 0).testBit (7 - i % 8) with
      | false => rfl
      | true =>
        exfalso
        obtain ⟨r, hr, hget, hre, hx⟩ := hc.mp ht
        have hri : r = i := by omega
        rw [hri, hb] at hget
        exact Bool.noConfusion hget
  · intro j x hx hlen2
    cases ht : ((bits_to_bytes bits).getD j 0).testBit x with
    | false => rfl
    | true =>
      exfalso
      obtain ⟨r, hr, -, hre, -⟩ := (bits_to_bytes_testBit bits j x).mp ht
      omega

/-- C8 witness: the theorem at the concrete bit vector `[true, false, true]`, which
packs to the single byte `0b10100000 = 0xa0`. -/
theorem c8_pack_bits_witness :
    (bits_to_bytes [true, false, true]).length = (3 + 7) / 8 ∧
    bits_to_bytes [] = [] ∧
    ((bits_to_bytes [true, false, true]).getD 0 0).testBit (7 - 2 % 8) =
      ([true, false, true] : List Bool).getD 2 false ∧
    ((bits_to_bytes [true, false, true]).getD 0 0).testBit 3 = false :=
  ⟨(c8_pack_bits [true, false, true]).1,
    (c8_pack_bits [true, false, true]).2.1,
    (c8_pack_bits [true, false, true]).2.2.1 2 (by decide),
    (c8_pack_bits [true, false, true]).2.2.2 0 3 (by decide) (by decide)⟩

/-- C9: `bytes_to_hex` renders each byte as exactly two lowercase hexadecimal
characters — the high nibble `b / 16` (a leading `'0'` when `b < 0x10`) followed by the
low nibble `b % 16` — producing a string of length exactly `2 * len(bytes)` whose every
character is drawn from `[0-9a-f]`, with no separators or prefix; the function is total
(it never fails). -/
theorem c9_hex_encoding (bytes : List Nat) (hb : ∀ b ∈ bytes, b < 256) :
    (bytes_to_hex bytes).length = 2 * bytes.length ∧
    (∀ c ∈ (bytes_to_hex bytes).data, isHexLower c = true) ∧
    (∀ i, i < bytes.length →
      (bytes_to_hex bytes).data.get? (2 * i) = some (hexChar (bytes.getD i 0 / 16)) ∧
      (bytes_to_hex bytes).data.get? (2 * i + 1) = some (hexChar (bytes.getD i 0 % 16))) := by
  have hdata := bytes_to_hex_data bytes
  refine ⟨?_, ?_, ?_⟩
  · show (bytes_to_hex bytes).data.length = _
    rw [hdata, flatMap_hex_length]
  · intro c hc
    rw [hdata, List.mem_flatMap] at hc
    obtain ⟨b, hbmem, hcb⟩ := hc
    have hblt := hb b hbmem
    have hcases : c = hexChar (b / 16) ∨ c = hexChar (b % 16) := by
      simpa [byteHexChars] using hcb
    rcases hcases with h | h
    · rw [h]
      exact hexChar_mem (b / 16) (by omega)
    · rw [h]
      exact hexChar_mem (b % 16) (by omega)
  · intro i hi
    rw [hdata]
    exact flatMap_hex_get? bytes i hi

/-- C9 witness: the theorem at the concrete byte vector `[0, 171]`, whose rendering is
`"00ab"`.  Byte 1 is `171 = 0xab`: high nibble `10 = 'a'`, low nibble `11 = 'b'`. -/
theorem c9_hex_encoding_witness :
    (∀ b ∈ ([0, 171] : List Nat), b < 256) ∧
    (bytes_to_hex [0, 171]).length = 2 * 2 ∧
    (bytes_to_hex [0, 171]).data.get? (2 * 1) = some (hexChar (([0, 171] : List Nat).getD 1 0 / 16)) ∧
    (bytes_to_hex [0, 171]).data.get? (2 * 1 + 1) = some (hexChar (([0, 171] : List Nat).getD 1 0 % 16)) :=
  ⟨by decide,
    (c9_hex_encoding [0, 171] (by decide)).1,
    ((c9_hex_encoding [0, 171] (by decide)).2.2 1 (by decide)).1,
    ((c9_hex_encoding [0, 171] (by decide)).2.2 1 (by decide)).2⟩

/-- C10: for every configuration with `width ≥ 1`, `height ≥ 1` whose `u8` index
arithmetic cannot wrap — in particular whenever `width * height ≤ 255`, which covers
both library defaults 8×8 and 9×8 — and every pixel buffer of length exactly
`width * height`, `difference_hash` runs to completion without panicking (it returns
`some`), and every computed offset is in bounds: each `offset_p` satisfies
`offset_p + 1 < width * height` and each `offset_b` satisfies
`offset_b < (width - 1) * height`. -/
theorem c10_difference_hash_safe (op : ImageOp) (pixels : List Nat)
    (hw1 : 1 ≤ op.width) (hh1 : 1 ≤ op.height) (hwh : op.width * op.height ≤ 255)
    (hlen : pixels.length = op.width * op.height) :
    (difference_hash op pixels).isSome = true ∧
    ∀ y x, y < op.height → x < op.width - 1 →
      ((y * op.width + x) % 256) + 1 < op.width * op.height ∧
      ((y * (op.width - 1) + x) % 256) < (op.width - 1) * op.height := by
  obtain ⟨w, h, filt⟩ := op
  simp only at hw1 hh1 hwh hlen ⊢
  have hw255 : w ≤ 255 := by
    have h3 : w * 1 ≤ w * h := Nat.mul_le_mul_left w hh1
    have h4 : w * 1 = w := Nat.mul_one w
    omega
  refine ⟨?_, ?_⟩
  · by_cases hw2 : 2 ≤ w
    · exact difference_hash_isSome w h filt pixels hw1 hw255 hwh hlen
    · have hweq : w = 1 := by omega
      subst hweq
      rw [difference_hash_width_one h filt pixels]
      rfl
  · intro y x hy hx
    have hp : y * w + (x + 1) < h * w := row_offset_lt w h y (x + 1) hy (by omega)
    have hcomm : h * w = w * h := Nat.mul_comm h w
    have hb1 : y * (w - 1) + x < (w - 1) * h := by
      have h5 := row_offset_lt (w - 1) h y x hy hx
      have h6 := Nat.mul_comm h (w - 1)
      omega
    have hble : (w - 1) * h ≤ w * h := Nat.mul_le_mul_right h (by omega)
    refine ⟨?_, ?_⟩
    · rw [Nat.mod_eq_of_lt (show y * w + x < 256 by omega)]
      omega
    · rw [Nat.mod_eq_of_lt (show y * (w - 1) + x < 256 by omega)]
      omega

/-- C10 witness: the theorem at the default 9×8 difference-hash configuration on a
72-sample buffer, with the last offsets (row 7, column 7) instantiated. -/
theorem c10_difference_hash_safe_witness :
    (1 ≤ (9 : Nat) ∧ 1 ≤ (8 : Nat) ∧ 9 * 8 ≤ 255 ∧
      (List.replicate 72 0 : List Nat).length = 9 * 8) ∧
    (difference_hash ⟨9, 8, FilterType.Lanczos3⟩ (List.replicate 72 0)).isSome = true ∧
    ((7 * 9 + 7) % 256) + 1 < 9 * 8 ∧ ((7 * (9 - 1) + 7) % 256) < (9 - 1) * 8 :=
  ⟨⟨by decide, by decide, by decide, by decide⟩,
    (c10_difference_hash_safe ⟨9, 8, FilterType.Lanczos3⟩ (List.replicate 72 0)
      (by decide) (by decide) (by decide) (by decide)).1,
    ((c10_difference_hash_safe ⟨9, 8, FilterType.Lanczos3⟩ (List.replicate 72 0)
      (by decide) (by decide) (by decide) (by decide)).2 7 7 (by decide) (by decide)).1,
    ((c10_difference_hash_safe ⟨9, 8, FilterType.Lanczos3⟩ (List.replicate 72 0)
      (by decide) (by decide) (by decide) (by decide)).2 7 7 (by decide) (by decide)).2⟩
